import Mathlib

/-!
Verification development for the parse-dag core of liblognorm (src/pdag.c).

The C code is shallowly embedded: pdag nodes become an inductive tree,
`size_t` arithmetic is `Nat` with explicit reduction modulo `2 ^ 64` where the
C performs wrapping arithmetic, json-c objects become association lists, and
the external field parsers (parser.c, which is not part of this repository
snapshot) are an abstract environment constrained only by the plug-in
contract stated in the specification.  Each definition is annotated with the
C function and line range it translates.
-/

set_option maxHeartbeats 1000000

/-- Model of json-c values (json_object).  A C NULL json pointer is
represented by `Option.none` at use sites; `JVal.null` is the json null
value that json-c reports for a NULL pointer's type. -/
inductive JVal : Type where
  | null : JVal
  | str (s : List Char) : JVal
  | num (n : Int) : JVal
  | obj (fields : List (String × JVal)) : JVal
  | arr (xs : List JVal) : JVal

/-- Content of a json object: ordered association list of members. -/
abbrev JObj := List (String × JVal)

/-- Model of json_object_object_add: if the key exists its value is replaced
in place, otherwise the member is appended. -/
def jadd (json : JObj) (k : String) (v : JVal) : JObj :=
  match json with
  | [] => [(k, v)]
  | (k2, v2) :: rest => if k2 = k then (k, v) :: rest else (k2, v2) :: jadd rest k v

/-- Model of json_object_object_get: first member with the given key. -/
def jlookup (json : JObj) (k : String) : Option JVal :=
  match json with
  | [] => none
  | (k2, v2) :: rest => if k2 = k then some v2 else jlookup rest k

mutual
/-- Model of struct ln_pdag (pdag.h): terminal flag, optional tags object,
and the ordered array of outgoing parser edges. -/
inductive PDag : Type where
  | mk (isTerminal : Bool) (tags : Option JVal) (edges : Edges)

/-- Ordered edge list (the parsers array of a node). -/
inductive Edges : Type where
  | nil : Edges
  | cons (hd : LnParser) (tl : Edges) : Edges

/-- Model of ln_parser_t: the parser definition, the field name, and the
child node.  The prio field is constantly 0 in the code and is omitted. -/
inductive LnParser : Type where
  | mk (pd : PrsDef) (name : String) (child : PDag)

/-- Parser kind of an edge.  PRS_LITERAL (table position 0) carries its
payload (parser_data); other built-in table entries are abstract with their
table position encoded as `id + 1` and an opaque data handle; a
PRS_CUSTOM_TYPE edge carries the referenced user-defined type's pdag inline
(in C a non-owning pointer into ctx->type_pdags, followed at match time). -/
inductive PrsDef : Type where
  | literal (payload : List Char)
  | builtin (id : Nat) (data : Nat)
  | custom (tname : String) (tpdag : PDag)
end

def PDag.isTerminal : PDag → Bool
  | .mk t _ _ => t

def PDag.tags : PDag → Option JVal
  | .mk _ tg _ => tg

def PDag.edges : PDag → Edges
  | .mk _ _ es => es

def LnParser.pd : LnParser → PrsDef
  | .mk p _ _ => p

def LnParser.name : LnParser → String
  | .mk _ nm _ => nm

def LnParser.child : LnParser → PDag
  | .mk _ _ c => c

/-- Append on edge lists (realloc-and-copy in ln_pdagAddParser). -/
def eappend : Edges → Edges → Edges
  | .nil, es2 => es2
  | .cons e tl, es2 => .cons e (eappend tl es2)

/-- Number of edges of a list (nparsers). -/
def elength : Edges → Nat
  | .nil => 0
  | .cons _ tl => elength tl + 1

/-- Modelled from the spec: the PRS_CUSTOM_TYPE sentinel from pdag.h (not in
the snapshot); only its distinctness from table positions matters here. -/
def PRS_CUSTOM_TYPE : Nat := 4294967295

/-- Numeric parser id as compared by ln_pdagAddParser (prsid field). -/
def PrsDef.prsid : PrsDef → Nat
  | .literal _ => 0
  | .builtin id _ => id + 1
  | .custom _ _ => PRS_CUSTOM_TYPE

/-- First character of a literal edge's parser_data, as read by the
work-around comparison in ln_pdagAddParser (pdag.c:395-397). -/
def litHead : PrsDef → Option Char
  | .literal p => p.head?
  | _ => none

/-- Modelled from the spec: LN_WRONGPARSER from liblognorm.h (not in the
snapshot); only its being nonzero matters. -/
def LN_WRONGPARSER : Nat := 170

/-- Wrap modulus of the C size_t arithmetic used by tryParser and the
normalizer (64-bit build). -/
def SIZE_W : Nat := 2 ^ 64

/-- Does `payload` occur literally at the front of `rest`? -/
def litMatch : List Char → List Char → Bool
  | [], _ => true
  | _ :: _, [] => false
  | c :: cs, d :: ds => c = d && litMatch cs ds

/-- Modelled from the spec: ln_parseLiteral (parser.c, not in the snapshot)
matches its fixed byte string at the current offset and consumes exactly its
length. -/
def litHere (payload str : List Char) (offs : Nat) : Bool :=
  litMatch payload (List.drop offs str)

/-- Abstract semantics of the non-literal built-in parsers of
parser_lookup_table (parser.c is not in the snapshot).  `parse id data str
offs` is `some n` when the parser at table position `id + 1` succeeds
consuming `n` characters (it updates the out parameters only on success, per
the plug-in contract), and `pval` is the value it writes through a non-NULL
value pointer. -/
structure ParserEnv where
  parse : Nat → Nat → List Char → Nat → Option Nat
  pval : Nat → Nat → List Char → Nat → JVal

/-- Modelled from the spec: ORIGINAL_MSG_KEY from internal.h is the reserved
field name originalmsg. -/
def ORIGINAL_MSG_KEY : String := "originalmsg"

/-- Modelled from the spec: UNPARSED_DATA_KEY from internal.h is the
reserved field name unparsed-data. -/
def UNPARSED_DATA_KEY : String := "unparsed-data"

/-- Translation of addUnparsedField (pdag.c:528-551): attach the full input
under originalmsg and the suffix starting at `offs` under unparsed-data. -/
def addUnparsedField (str : List Char) (offs : Nat) (json : JObj) : JObj :=
  jadd (jadd json ORIGINAL_MSG_KEY (JVal.str str)) UNPARSED_DATA_KEY
    (JVal.str (List.drop offs str))

/-- Translation of fixJSON (pdag.c:555-589).  `value = none` models a NULL
json pointer; json_object_get_type(NULL) is json_type_null, so a NULL value
under a name other than - falls into the object_add branches, adding a null
member, exactly as the C does. -/
def fixJSON (nm : String) (value : Option JVal) (json : JObj) : JObj :=
  if nm = "-" then json
  else if nm = "." then
    match value with
    | some (JVal.obj fs) => fs.foldl (fun j kv => jadd j kv.1 kv.2) json
    | _ => jadd json nm (value.getD JVal.null)
  else jadd json nm (value.getD JVal.null)

/-- Result of tryParser: status, the value left in *pParsed, and the value
left in *value. -/
structure TryRes where
  r : Nat
  parsed : Nat
  value : Option JVal

/-- Result of ln_normalizeRec: status, final watermark *pParsedTo, the json
object, and the *endNode out parameter. -/
structure NRes where
  r : Nat
  wm : Nat
  json : JObj
  endN : Option PDag

/-- State carried across iterations of the edge loop of ln_normalizeRec:
r, the local parsedTo, the per-call parsed variable (never reset between
iterations, pdag.c:661), the watermark *pParsedTo, the json object and
*endNode. -/
structure LoopSt where
  r : Nat
  parsedTo : Nat
  parsed : Nat
  wm : Nat
  json : JObj
  endN : Option PDag

mutual
/-- Translation of ln_normalizeRec (pdag.c:646-710): run the edge loop
starting from r = LN_WRONGPARSER, parsedTo = *pParsedTo, parsed = 0, then
perform the terminal check of pdag.c:701-705, which overwrites *endNode and
r whenever the node is terminal and (offs = strLen or partial). -/
def ln_normalizeRec (E : ParserEnv) (str : List Char) (dag : PDag) (offs : Nat)
    (bPartialMatch : Bool) (wm0 : Nat) (json : JObj) (endN : Option PDag) : NRes :=
  match dag with
  | .mk term tg es =>
    let st := edgeLoop E str offs bPartialMatch es
      ⟨LN_WRONGPARSER, wm0, 0, wm0, json, endN⟩
    if term = true ∧ (offs = str.length ∨ bPartialMatch = true) then
      ⟨0, st.wm, st.json, some (PDag.mk term tg es)⟩
    else ⟨st.r, st.wm, st.json, st.endN⟩

/-- The for loop of ln_normalizeRec (pdag.c:668-698): iterate the edges in
array order while r is nonzero. -/
def edgeLoop (E : ParserEnv) (str : List Char) (offs : Nat) (bPartialMatch : Bool)
    (es : Edges) (st : LoopSt) : LoopSt :=
  match es with
  | .nil => st
  | .cons prs rest =>
      if st.r = 0 then st
      else edgeLoop E str offs bPartialMatch rest
        (stepEdge E str offs bPartialMatch prs st)

/-- One iteration of the edge loop (pdag.c:669-697): i = offs, value = NULL,
call tryParser; on parser success set parsedTo = i + parsed, recurse into the
child with (parsedTo, &parsedTo), fold the value on subtree success or drop
it on failure; finally update the watermark monotonically. -/
def stepEdge (E : ParserEnv) (str : List Char) (offs : Nat) (bPartialMatch : Bool)
    (prs : LnParser) (st : LoopSt) : LoopSt :=
  match prs with
  | .mk pd nm child =>
    let t := tryParser E str offs st.parsed pd nm
    if t.r = 0 then
      let pTo := (offs + t.parsed) % SIZE_W
      let sub2 := ln_normalizeRec E str child pTo bPartialMatch pTo st.json st.endN
      let json2 := if sub2.r = 0 then fixJSON nm t.value sub2.json else sub2.json
      ⟨sub2.r, sub2.wm, t.parsed,
        if sub2.wm > st.wm then sub2.wm else st.wm, json2, sub2.endN⟩
    else
      ⟨st.r, st.parsedTo, t.parsed,
        if st.parsedTo > st.wm then st.parsedTo else st.wm, st.json, st.endN⟩

/-- Translation of tryParser (pdag.c:602-627).  For PRS_CUSTOM_TYPE: create
a fresh value object, recurse into the type's pdag with partial = 1, the
caller's parsed variable as the watermark and a local endNode, then execute
the unconditional size_t subtraction *pParsed -= *offs.  For built-ins: call
the table parser, suppressing the value pointer when the field name is -;
per the plug-in contract the out parameters change only on success. -/
def tryParser (E : ParserEnv) (str : List Char) (offs : Nat)
    (parsed0 : Nat) (pd : PrsDef) (nm : String) : TryRes :=
  match pd with
  | .custom _ tpdag =>
      let sub := ln_normalizeRec E str tpdag offs true parsed0 [] none
      ⟨sub.r, (sub.wm + SIZE_W - offs % SIZE_W) % SIZE_W, some (JVal.obj sub.json)⟩
  | .literal payload =>
      if litHere payload str offs then
        ⟨0, payload.length % SIZE_W,
          if nm = "-" then none else some (JVal.str payload)⟩
      else ⟨LN_WRONGPARSER, parsed0, none⟩
  | .builtin pid pdata =>
      match E.parse pid pdata str offs with
      | some len =>
          ⟨0, len % SIZE_W,
            if nm = "-" then none else some (E.pval pid pdata str offs)⟩
      | none => ⟨LN_WRONGPARSER, parsed0, none⟩
end

/-- Translation of ln_normalize (pdag.c:713-750): run the recursive
normalizer from offset 0 with partial = 0 and watermark 0; on r = 0 with a
terminal endNode attach the node's tags (if any) under event.tags (the
external annotator of annot.c is modelled from the spec as succeeding
without further json changes); otherwise attach the unparsed fields. -/
def ln_normalize (E : ParserEnv) (str : List Char) (pdag : PDag) (json0 : JObj) : NRes :=
  let res := ln_normalizeRec E str pdag 0 false 0 json0 none
  match res.endN with
  | some (.mk term tg _) =>
      if res.r = 0 ∧ term = true then
        ⟨res.r, res.wm,
          (match tg with
           | some tgv => jadd res.json "event.tags" tgv
           | none => res.json), res.endN⟩
      else ⟨res.r, res.wm, addUnparsedField str res.wm res.json, res.endN⟩
  | none => ⟨res.r, res.wm, addUnparsedField str res.wm res.json, res.endN⟩

/-- Equivalence test of the search loop in ln_pdagAddParser (pdag.c:390-403):
same prsid and same name; when the new parser is a literal, the work-around
additionally requires the first parser_data characters to agree (otherwise
the loop continues). -/
def prsEquiv (ex : LnParser) (pd : PrsDef) (nm : String) : Bool :=
  decide (PrsDef.prsid (LnParser.pd ex) = PrsDef.prsid pd)
    && decide (LnParser.name ex = nm)
    && (decide (PrsDef.prsid pd ≠ 0)
        || decide (litHead (LnParser.pd ex) = litHead pd))

/-- First existing edge equivalent to the new parser, in array order. -/
def findEquiv (es : Edges) (pd : PrsDef) (nm : String) : Option LnParser :=
  match es with
  | .nil => none
  | .cons e tl => if prsEquiv e pd nm then some e else findEquiv tl pd nm

/-- Model of the allocation-tracking part of ln_ctx: nNodes. -/
structure CtxModel where
  nNodes : Nat

/-- Translation of ln_newPDAG (pdag.c:142-153): allocate an empty node and
increment the context's node count. -/
def ln_newPDAG (ctx : CtxModel) : CtxModel × PDag :=
  (⟨ctx.nNodes + 1⟩, PDag.mk false none .nil)

/-- Translation of ln_pdagAddParser (pdag.c:380-420), with the context
threaded because the append path allocates the child via ln_newPDAG.  On an
equivalent existing edge, the provided parser is freed (its node field is
still NULL, so no pdag is deleted), the node is unchanged and *pdag advances
to the existing edge's child.  Otherwise the edge is appended with a fresh
child and *pdag advances to that child. -/
def ln_pdagAddParser (ctx : CtxModel) (dag : PDag) (pd : PrsDef) (nm : String) :
    CtxModel × PDag × PDag :=
  match dag with
  | .mk t tg es =>
    match findEquiv es pd nm with
    | some e => (ctx, PDag.mk t tg es, LnParser.child e)
    | none =>
        let c := ln_newPDAG ctx
        (c.1, PDag.mk t tg (eappend es (.cons (LnParser.mk pd nm c.2) .nil)), c.2)

mutual
/-- Number of live nodes of a component (the graph is a tree: each edge
owns its child, pdag.c:155-169). -/
def countNodes : PDag → Nat
  | .mk _ _ es => countNodesE es + 1

/-- Node count below an edge list. -/
def countNodesE : Edges → Nat
  | .nil => 0
  | .cons (.mk _ _ c) tl => countNodes c + countNodesE tl
end

/-- The while loop of optLitPathCompact (pdag.c:200-219) on a literal edge
with payload `payload` and child `child`: while the child has exactly one
edge and that edge is a literal, append the child edge's payload (modelled
from the spec: ln_combineData_Literal of parser.c concatenates the two
literal payloads) and splice the child node out, dropping its terminal flag
and tags with it. -/
def optCompact (payload : List Char) (child : PDag) : List Char × PDag :=
  match child with
  | .mk _ _ (.cons (.mk (.literal p2) _ gchild) .nil) =>
      optCompact (payload ++ p2) gchild
  | c => (payload, c)

/-- Translation of optLitPathCompact (pdag.c:195-222): the loop applies only
when the edge itself is a literal; no field-name or terminal check is made
(the TODO comments of pdag.c:206-208 remain unimplemented). -/
def optLitPathCompact (prs : LnParser) : LnParser :=
  match prs with
  | .mk (.literal payload) nm child =>
      let pc := optCompact payload child
      .mk (.literal pc.1) nm pc.2
  | p => p

mutual
/-- Translation of ln_pdagComponentOptimize (pdag.c:224-239): for each edge,
first run literal path compaction on it, then recurse into the
(post-compaction) child.  Compaction and the subsequent recursion into the
final child are fused here (optEdgeGo) so that the recursion is on
structural subterms; optEdgeFull_eq below relates this to
optLitPathCompact. -/
def ln_pdagComponentOptimize : PDag → PDag
  | .mk t tg es => .mk t tg (optEdgesRec es)
termination_by g => (sizeOf g, 0)
decreasing_by
  simp_wf
  omega

/-- The for loop of ln_pdagComponentOptimize over the edge array. -/
def optEdgesRec : Edges → Edges
  | .nil => .nil
  | .cons prs rest => .cons (optEdgeFull prs) (optEdgesRec rest)
termination_by es => (sizeOf es, 0)
decreasing_by
  all_goals simp_wf
  all_goals omega

/-- Handling of one edge by ln_pdagComponentOptimize: literal path
compaction on the edge (a no-op unless the edge is a literal, pdag.c:201),
then the recursive optimization of the edge's final child. -/
def optEdgeFull : LnParser → LnParser
  | .mk (.literal payload) nm child => optEdgeGo payload nm child
  | .mk pd nm child => .mk pd nm (ln_pdagComponentOptimize child)
termination_by prs => (sizeOf prs, 0)
decreasing_by
  all_goals simp_wf
  all_goals omega

/-- The while loop of optLitPathCompact fused with the recursion into the
node at which compaction stops. -/
def optEdgeGo (payload : List Char) (nm : String) (child : PDag) : LnParser :=
  match child with
  | .mk _ _ (.cons (.mk (.literal p2) _ gchild) .nil) =>
      optEdgeGo (payload ++ p2) nm gchild
  | c => .mk (.literal payload) nm (ln_pdagComponentOptimize c)
termination_by (sizeOf child, 1)
decreasing_by
  all_goals simp_wf
  all_goals omega
end

/-- Translation of ln_pdagOptimize (pdag.c:244-260): optimize every
user-defined-type component, then the main component. -/
def ln_pdagOptimize (types : List PDag) (mainDag : PDag) : List PDag × PDag :=
  (types.map ln_pdagComponentOptimize, ln_pdagComponentOptimize mainDag)

/-- Some edge of `es` is reached with r still nonzero and succeeds (its
parser matches and its subtree matches), all loop state threaded exactly as
the edge loop threads it. -/
def FirstSuccess (E : ParserEnv) (str : List Char) (offs : Nat) (bPartialMatch : Bool)
    (es : Edges) (st : LoopSt) : Prop :=
  ∃ pre e post, es = eappend pre (.cons e post)
    ∧ (edgeLoop E str offs bPartialMatch pre st).r ≠ 0
    ∧ (stepEdge E str offs bPartialMatch e (edgeLoop E str offs bPartialMatch pre st)).r = 0

/-- Value of the last member of `fs` carrying key `k` (json-c object merge
semantics: later additions overwrite earlier ones). -/
def jfindLast (fs : List (String × JVal)) (k : String) : Option JVal :=
  match fs with
  | [] => none
  | kv :: rest =>
      match jfindLast rest k with
      | some v => some v
      | none => if kv.1 = k then some kv.2 else none

/-- Does some edge of the list match edge `b` under the equivalence used by
the search loop of ln_pdagAddParser? -/
def dupIn (b : LnParser) : Edges → Bool
  | .nil => false
  | .cons a tl => prsEquiv a (LnParser.pd b) (LnParser.name b) || dupIn b tl

/-- No two edges of the list are equivalent in the sense of the search loop
of ln_pdagAddParser: no two share prsid and name, except literals that
additionally differ in their literal character. -/
def uniqE : Edges → Bool
  | .nil => true
  | .cons a tl => !(dupIn a tl) && uniqE tl

/-- A sequence of ln_pdagAddParser calls against one node (as the rulebase
parser performs for the alternative edges rooted at that node), threading
the context. -/
def addSeq (ctx : CtxModel) (dag : PDag) : List (PrsDef × String) → CtxModel × PDag
  | [] => (ctx, dag)
  | (pd, nm) :: rest =>
      addSeq (ln_pdagAddParser ctx dag pd nm).1 (ln_pdagAddParser ctx dag pd nm).2.1 rest

/-- Shape tested by the while condition of optLitPathCompact: exactly one
outgoing edge and that edge is a literal. -/
def litHeadSingle : PDag → Bool
  | .mk _ _ (.cons (.mk (.literal _) _ _) .nil) => true
  | _ => false

/-- Parser environment where every abstract built-in parser fails; the
concrete scenarios below use only literal and custom-type edges. -/
def E0 : ParserEnv := ⟨fun _ _ _ _ => none, fun _ _ _ _ => JVal.null⟩

/-- Terminal node with no outgoing edges. -/
def tEmpty : PDag := .mk true none .nil

/-- Non-terminal node with no outgoing edges (a freshly allocated child that
never received edges). -/
def deadEnd : PDag := .mk false none .nil

/-- The component built by installing the literal samples AB and ABCD (one
literal edge per character, shared prefix merged by ln_pdagAddParser, the
node after B marked terminal by the first sample). -/
def abN3 : PDag := .mk false none (.cons (.mk (.literal ['D']) "-" tEmpty) .nil)

/-- Node reached after AB: terminal (end of sample AB) with the single
literal edge C continuing towards ABCD. -/
def abN2 : PDag := .mk true none (.cons (.mk (.literal ['C']) "-" abN3) .nil)

/-- Node reached after A. -/
def abN1 : PDag := .mk false none (.cons (.mk (.literal ['B']) "-" abN2) .nil)

/-- Root of the AB / ABCD component. -/
def abRoot : PDag := .mk false none (.cons (.mk (.literal ['A']) "-" abN1) .nil)

/-- A literal edge u carrying the field name x, followed by a literal edge v
with the discard name: compaction fuses them despite the non-discard name. -/
def namedLitRoot : PDag :=
  .mk false none
    (.cons (.mk (.literal ['u']) "x"
        (.mk false none (.cons (.mk (.literal ['v']) "-" tEmpty) .nil)))
      .nil)

/-- Root for the custom-type consumed-length scenario: a literal edge a to a
dead end (its parser succeeds, its subtree fails), then a CUSTOM_TYPE edge
whose type pdag is an empty terminal (matches the empty string) and whose
child is terminal. -/
def skipRoot : PDag :=
  .mk false none
    (.cons (.mk (.literal ['a']) "-" deadEnd)
      (.cons (.mk (.custom "t" tEmpty) "f" tEmpty) .nil))

/-- The same rule without the preceding literal edge. -/
def skipRootB : PDag :=
  .mk false none (.cons (.mk (.custom "t" tEmpty) "f" tEmpty) .nil)

/-- Inner node of the watermark overflow scenario: two CUSTOM_TYPE edges to
the empty-matching type, reached at offset 1. -/
def wmN : PDag :=
  .mk false none
    (.cons (.mk (.custom "t" tEmpty) "a" deadEnd)
      (.cons (.mk (.custom "t" tEmpty) "b" deadEnd) .nil))

/-- Root of the watermark overflow scenario: literal x, then wmN. -/
def wmRoot : PDag := .mk false none (.cons (.mk (.literal ['x']) "-" wmN) .nil)

theorem jlookup_jadd_self (j : JObj) (k : String) (v : JVal) :
    jlookup (jadd j k v) k = some v := by
  induction j with
  | nil => simp [jadd, jlookup]
  | cons kv rest ih =>
    by_cases h : kv.1 = k
    · simp [jadd, jlookup, h]
    · simp [jadd, jlookup, h, ih]

theorem jlookup_jadd_other (j : JObj) (k k2 : String) (v : JVal) (h : k2 ≠ k) :
    jlookup (jadd j k v) k2 = jlookup j k2 := by
  have h4 : k ≠ k2 := fun hh => h hh.symm
  induction j with
  | nil => simp [jadd, jlookup, h4]
  | cons kv rest ih =>
    by_cases h2 : kv.1 = k
    · have h5 : kv.1 ≠ k2 := by rw [h2]; exact h4
      simp [jadd, jlookup, h2, h4, h5]
    · by_cases h3 : kv.1 = k2
      · simp [jadd, jlookup, h2, h3, h]
      · simp [jadd, jlookup, h2, h3, ih]

theorem jlookup_foldl_jadd (fs : List (String × JVal)) (j : JObj) (k : String) :
    jlookup (fs.foldl (fun a kv => jadd a kv.1 kv.2) j) k
      = match jfindLast fs k with
        | some v => some v
        | none => jlookup j k := by
  induction fs generalizing j with
  | nil => simp [jfindLast]
  | cons kv rest ih =>
    simp only [List.foldl_cons, jfindLast]
    rw [ih]
    cases hf : jfindLast rest k with
    | some v => simp
    | none =>
      by_cases h : kv.1 = k
      · simp only [if_pos h]
        rw [← h, jlookup_jadd_self]
      · simp only [if_neg h]
        rw [jlookup_jadd_other _ _ _ _ (fun hh => h hh.symm)]

/-- C7: result folding applies exactly three rules by edge name.  For the
name - the built-in parser is invoked with a suppressed (NULL) value out
parameter and whatever value exists is dropped, so no field appears; for the
name . with a map value every key of the value is inserted at the current
level with later entries overwriting earlier ones, while a non-map value is
attached under the literal key .; any other name attaches the value under
that name. -/
theorem claim_C7_fold_rules :
    (∀ v json, fixJSON "-" v json = json)
    ∧ (∀ fs json k, jlookup (fixJSON "." (some (JVal.obj fs)) json) k
        = match jfindLast fs k with
          | some v => some v
          | none => jlookup json k)
    ∧ (∀ v json, (∀ fs, v ≠ JVal.obj fs) → fixJSON "." (some v) json = jadd json "." v)
    ∧ (∀ nm v json, nm ≠ "-" → nm ≠ "." → fixJSON nm (some v) json = jadd json nm v)
    ∧ (∀ E str offs parsed0 pid pdata,
        (tryParser E str offs parsed0 (.builtin pid pdata) "-").value = none)
    ∧ (∀ E str offs parsed0 payload,
        (tryParser E str offs parsed0 (.literal payload) "-").value = none)
  := by
  refine ⟨?_, ?_, ?_, ?_, ?_, ?_⟩
  · intro v json
    simp [fixJSON]
  · intro fs json k
    simp only [fixJSON, reduceIte]
    exact jlookup_foldl_jadd fs json k
  · intro v json h
    cases v with
    | obj fs => exact absurd rfl (h fs)
    | null => simp [fixJSON]
    | str s => simp [fixJSON]
    | num n => simp [fixJSON]
    | arr xs => simp [fixJSON]
  · intro nm v json h1 h2
    simp [fixJSON, h1, h2]
  · intro E str offs parsed0 pid pdata
    simp only [tryParser]
    cases E.parse pid pdata str offs <;> simp
  · intro E str offs parsed0 payload
    simp only [tryParser]
    by_cases h : litHere payload str offs <;> simp [h]

/-- C7 witness: the fold rules evaluated at concrete inputs. -/
theorem claim_C7_fold_rules_witness :
    fixJSON "." (some (JVal.num 5)) [] = jadd [] "." (JVal.num 5)
    ∧ fixJSON "host" (some (JVal.num 5)) [] = jadd [] "host" (JVal.num 5)
    ∧ jlookup (fixJSON "." (some (JVal.obj [("k", JVal.num 1), ("k", JVal.num 2)])) []) "k"
        = some (JVal.num 2) := by
  refine ⟨?_, ?_, ?_⟩
  · exact claim_C7_fold_rules.2.2.1 (JVal.num 5) [] (by intro fs h; simp at h)
  · exact claim_C7_fold_rules.2.2.2.1 "host" (JVal.num 5) [] (by decide) (by decide)
  · rw [claim_C7_fold_rules.2.1 [("k", JVal.num 1), ("k", JVal.num 2)] [] "k"]
    simp [jfindLast]

theorem edgeLoop_done (E : ParserEnv) (str : List Char) (offs : Nat) (pm : Bool)
    (es : Edges) (st : LoopSt) (h : st.r = 0) :
    edgeLoop E str offs pm es st = st := by
  cases es with
  | nil => rfl
  | cons e tl => simp [edgeLoop, h]

theorem edgeLoop_append (E : ParserEnv) (str : List Char) (offs : Nat) (pm : Bool)
    (pre post : Edges) (st : LoopSt) :
    edgeLoop E str offs pm (eappend pre post) st
      = edgeLoop E str offs pm post (edgeLoop E str offs pm pre st) := by
  match pre with
  | .nil => rfl
  | .cons e tl =>
    by_cases h : st.r = 0
    · rw [edgeLoop_done E str offs pm (eappend (.cons e tl) post) st h,
        edgeLoop_done E str offs pm (.cons e tl) st h,
        edgeLoop_done E str offs pm post st h]
    · simp only [eappend, edgeLoop, if_neg h]
      exact edgeLoop_append E str offs pm tl post (stepEdge E str offs pm e st)

theorem eappend_cons_ne_nil (pre : Edges) (e : LnParser) (post : Edges) :
    eappend pre (.cons e post) ≠ .nil := by
  cases pre <;> simp [eappend]

theorem firstSuccess_cons (E : ParserEnv) (str : List Char) (offs : Nat) (pm : Bool)
    (e : LnParser) (tl : Edges) (st : LoopSt)
    (h : st.r ≠ 0) (hs : (stepEdge E str offs pm e st).r ≠ 0) :
    FirstSuccess E str offs pm (.cons e tl) st
      ↔ FirstSuccess E str offs pm tl (stepEdge E str offs pm e st) := by
  constructor
  · rintro ⟨pre, f, post, heq, hpre, hstep⟩
    cases pre with
    | nil =>
        simp only [eappend] at heq
        injection heq with h1 h2
        subst h1
        subst h2
        simp only [edgeLoop] at hstep
        exact absurd hstep hs
    | cons p ptl =>
        simp only [eappend] at heq
        injection heq with h1 h2
        subst h1
        subst h2
        refine ⟨ptl, f, post, rfl, ?_, ?_⟩
        · simpa only [edgeLoop, if_neg h] using hpre
        · have hq : edgeLoop E str offs pm (.cons e ptl) st
              = edgeLoop E str offs pm ptl (stepEdge E str offs pm e st) := by
            simp only [edgeLoop, if_neg h]
          rw [hq] at hstep
          exact hstep
  · rintro ⟨pre, f, post, heq, hpre, hstep⟩
    refine ⟨.cons e pre, f, post, by rw [heq]; rfl, ?_, ?_⟩
    · simpa only [edgeLoop, if_neg h] using hpre
    · have hq : edgeLoop E str offs pm (.cons e pre) st
          = edgeLoop E str offs pm pre (stepEdge E str offs pm e st) := by
        simp only [edgeLoop, if_neg h]
      rw [hq]
      exact hstep

theorem edgeLoop_r_zero (E : ParserEnv) (str : List Char) (offs : Nat) (pm : Bool)
    (es : Edges) (st : LoopSt) :
    (edgeLoop E str offs pm es st).r = 0
      ↔ (st.r = 0 ∨ FirstSuccess E str offs pm es st) := by
  match es with
  | .nil =>
    simp only [edgeLoop]
    constructor
    · exact fun hz => Or.inl hz
    · rintro (hz | ⟨pre, f, post, heq, -, -⟩)
      · exact hz
      · exact absurd heq.symm (eappend_cons_ne_nil pre f post)
  | .cons e tl =>
    by_cases h : st.r = 0
    · rw [edgeLoop_done E str offs pm (.cons e tl) st h]
      exact ⟨fun hz => Or.inl hz, fun _ => h⟩
    · simp only [edgeLoop, if_neg h]
      by_cases hs : (stepEdge E str offs pm e st).r = 0
      · rw [edgeLoop_done E str offs pm tl _ hs]
        constructor
        · intro
          exact Or.inr ⟨.nil, e, tl, rfl, by simpa [edgeLoop] using h, by simpa [edgeLoop] using hs⟩
        · intro
          exact hs
      · rw [edgeLoop_r_zero E str offs pm tl (stepEdge E str offs pm e st)]
        rw [firstSuccess_cons E str offs pm e tl st h hs]
        constructor
        · rintro (hz | hf)
          · exact absurd hz hs
          · exact Or.inr hf
        · rintro (hz | hf)
          · exact absurd hz h
          · exact Or.inr hf

/-- C2: for every node, input, offset and partial flag, the recursive
normalizer tries the outgoing edges in list order and stops at the first
edge whose parser and subtree both succeed; the overall status is 0 exactly
when such an edge exists or the node is terminal with (offs = strLen or
partial), in which latter case endNode is set to the current node; in all
remaining cases the status is nonzero. -/
theorem claim_C2_normalizeRec_order (E : ParserEnv) (str : List Char) (t : Bool)
    (tg : Option JVal) (es : Edges) (offs : Nat) (pm : Bool) (wm0 : Nat)
    (json0 : JObj) (endN0 : Option PDag) :
    ((ln_normalizeRec E str (.mk t tg es) offs pm wm0 json0 endN0).r = 0
      ↔ (FirstSuccess E str offs pm es ⟨LN_WRONGPARSER, wm0, 0, wm0, json0, endN0⟩
          ∨ (t = true ∧ (offs = str.length ∨ pm = true))))
    ∧ ((t = true ∧ (offs = str.length ∨ pm = true)) →
        (ln_normalizeRec E str (.mk t tg es) offs pm wm0 json0 endN0).endN
            = some (.mk t tg es)
          ∧ (ln_normalizeRec E str (.mk t tg es) offs pm wm0 json0 endN0).r = 0)
    ∧ (∀ pre e post, es = eappend pre (.cons e post) →
        (edgeLoop E str offs pm pre ⟨LN_WRONGPARSER, wm0, 0, wm0, json0, endN0⟩).r ≠ 0 →
        (stepEdge E str offs pm e
            (edgeLoop E str offs pm pre ⟨LN_WRONGPARSER, wm0, 0, wm0, json0, endN0⟩)).r = 0 →
        edgeLoop E str offs pm es ⟨LN_WRONGPARSER, wm0, 0, wm0, json0, endN0⟩
          = stepEdge E str offs pm e
              (edgeLoop E str offs pm pre ⟨LN_WRONGPARSER, wm0, 0, wm0, json0, endN0⟩)) := by
  refine ⟨?_, ?_, ?_⟩
  · simp only [ln_normalizeRec]
    by_cases hc : t = true ∧ (offs = str.length ∨ pm = true)
    · simp [hc]
    · simp only [if_neg hc]
      rw [edgeLoop_r_zero]
      simp [LN_WRONGPARSER, hc]
  · intro hc
    simp [ln_normalizeRec, hc]
  · intro pre e post heq hpre hstep
    rw [heq, edgeLoop_append]
    have hne : (edgeLoop E str offs pm pre
        ⟨LN_WRONGPARSER, wm0, 0, wm0, json0, endN0⟩).r ≠ 0 := hpre
    simp only [edgeLoop, if_neg hne]
    exact edgeLoop_done E str offs pm post _ hstep

/-- C2 witness: a terminal root on empty input succeeds with endNode the
root itself, and on a one-edge node the loop stops at that first
successful edge. -/
theorem claim_C2_normalizeRec_order_witness :
    ((ln_normalizeRec E0 [] (.mk true none .nil) 0 false 0 [] none).endN
        = some (.mk true none .nil)
      ∧ (ln_normalizeRec E0 [] (.mk true none .nil) 0 false 0 [] none).r = 0)
    ∧ edgeLoop E0 [] 0 false (.cons (.mk (.literal []) "-" tEmpty) .nil)
          ⟨LN_WRONGPARSER, 0, 0, 0, [], none⟩
        = stepEdge E0 [] 0 false (.mk (.literal []) "-" tEmpty)
            (edgeLoop E0 [] 0 false .nil ⟨LN_WRONGPARSER, 0, 0, 0, [], none⟩) := by
  constructor
  · exact (claim_C2_normalizeRec_order E0 [] true none .nil 0 false 0 [] none).2.1
      ⟨rfl, Or.inl rfl⟩
  · exact (claim_C2_normalizeRec_order E0 [] false none
        (.cons (.mk (.literal []) "-" tEmpty) .nil) 0 false 0 [] none).2.2
      .nil (.mk (.literal []) "-" tEmpty) .nil rfl (by decide) (by decide)

theorem stepEdge_wm_le (E : ParserEnv) (str : List Char) (offs : Nat) (pm : Bool)
    (e : LnParser) (st : LoopSt) :
    st.wm ≤ (stepEdge E str offs pm e st).wm := by
  match e with
  | .mk pd nm child =>
    simp only [stepEdge]
    by_cases h1 : (tryParser E str offs st.parsed pd nm).r = 0
    · rw [if_pos h1]
      dsimp only
      split <;> omega
    · rw [if_neg h1]
      dsimp only
      split <;> omega

theorem edgeLoop_wm_le (E : ParserEnv) (str : List Char) (offs : Nat) (pm : Bool)
    (es : Edges) (st : LoopSt) :
    st.wm ≤ (edgeLoop E str offs pm es st).wm := by
  match es with
  | .nil => exact Nat.le_refl _
  | .cons e tl =>
    by_cases h : st.r = 0
    · rw [edgeLoop_done E str offs pm _ st h]
    · simp only [edgeLoop, if_neg h]
      exact Nat.le_trans (stepEdge_wm_le E str offs pm e st)
        (edgeLoop_wm_le E str offs pm tl (stepEdge E str offs pm e st))

theorem normalizeRec_wm_le (E : ParserEnv) (str : List Char) (dag : PDag) (offs : Nat)
    (pm : Bool) (wm0 : Nat) (json0 : JObj) (endN0 : Option PDag) :
    wm0 ≤ (ln_normalizeRec E str dag offs pm wm0 json0 endN0).wm := by
  match dag with
  | .mk t tg es =>
    have h := edgeLoop_wm_le E str offs pm es ⟨LN_WRONGPARSER, wm0, 0, wm0, json0, endN0⟩
    simp only [ln_normalizeRec]
    split <;> exact h

/-- C3: the watermark out-parameter never decreases during a normalizeRec
call (it only moves via a strictly-greater guard); but the bound parsedTo
less-or-equal strLen claimed for failing top-level calls is violated when a
CUSTOM_TYPE edge runs after an earlier edge has advanced the per-iteration
parsed variable: on the one-character input x and the wmRoot component,
tryParser executes the size_t subtraction *pParsed -= *offs with *pParsed
below *offs, the subtraction wraps, and the final watermark of the failing
normalize call is 2 ^ 64 - 1, far beyond strLen = 1. -/
theorem claim_C3_watermark :
    (∀ (E : ParserEnv) (str : List Char) (dag : PDag) (offs : Nat) (pm : Bool)
        (wm0 : Nat) (json0 : JObj) (endN0 : Option PDag),
      wm0 ≤ (ln_normalizeRec E str dag offs pm wm0 json0 endN0).wm)
    ∧ (ln_normalize E0 ['x'] wmRoot []).r ≠ 0
    ∧ (ln_normalize E0 ['x'] wmRoot []).wm = 18446744073709551615
    ∧ List.length ['x'] = 1 := by
  refine ⟨normalizeRec_wm_le, ?_, ?_, rfl⟩
  · simp [ln_normalize, ln_normalizeRec, edgeLoop, stepEdge, tryParser, wmRoot, wmN, tEmpty,
      deadEnd, SIZE_W, LN_WRONGPARSER, fixJSON, litHere, litMatch, E0, jadd, addUnparsedField]
  · simp [ln_normalize, ln_normalizeRec, edgeLoop, stepEdge, tryParser, wmRoot, wmN, tEmpty,
      deadEnd, SIZE_W, LN_WRONGPARSER, fixJSON, litHere, litMatch, E0, jadd, addUnparsedField]

mutual
theorem normalizeRec_end_term (E : ParserEnv) (str : List Char) (dag : PDag) (offs : Nat)
    (pm : Bool) (wm0 : Nat) (json0 : JObj) (endN0 : Option PDag) :
    (ln_normalizeRec E str dag offs pm wm0 json0 endN0).r = 0 →
    ∃ d, (ln_normalizeRec E str dag offs pm wm0 json0 endN0).endN = some d
      ∧ PDag.isTerminal d = true := by
  match dag with
  | .mk t tg es =>
    intro hr
    simp only [ln_normalizeRec] at hr ⊢
    by_cases hc : t = true ∧ (offs = str.length ∨ pm = true)
    · rw [if_pos hc]
      exact ⟨.mk t tg es, rfl, by simp [PDag.isTerminal, hc.1]⟩
    · rw [if_neg hc] at hr ⊢
      exact edgeLoop_end_term E str offs pm es
        ⟨LN_WRONGPARSER, wm0, 0, wm0, json0, endN0⟩
        (fun h0 => absurd h0 (by simp [LN_WRONGPARSER])) hr

theorem edgeLoop_end_term (E : ParserEnv) (str : List Char) (offs : Nat) (pm : Bool)
    (es : Edges) (st : LoopSt)
    (hinv : st.r = 0 → ∃ d, st.endN = some d ∧ PDag.isTerminal d = true) :
    (edgeLoop E str offs pm es st).r = 0 →
    ∃ d, (edgeLoop E str offs pm es st).endN = some d ∧ PDag.isTerminal d = true := by
  match es with
  | .nil => exact hinv
  | .cons e tl =>
    by_cases h : st.r = 0
    · rw [edgeLoop_done E str offs pm _ st h]
      exact hinv
    · simp only [edgeLoop, if_neg h]
      exact edgeLoop_end_term E str offs pm tl (stepEdge E str offs pm e st)
        (stepEdge_end_term E str offs pm e st hinv)

theorem stepEdge_end_term (E : ParserEnv) (str : List Char) (offs : Nat) (pm : Bool)
    (e : LnParser) (st : LoopSt)
    (hinv : st.r = 0 → ∃ d, st.endN = some d ∧ PDag.isTerminal d = true) :
    (stepEdge E str offs pm e st).r = 0 →
    ∃ d, (stepEdge E str offs pm e st).endN = some d ∧ PDag.isTerminal d = true := by
  match e with
  | .mk pd nm child =>
    intro hr
    simp only [stepEdge] at hr ⊢
    by_cases h1 : (tryParser E str offs st.parsed pd nm).r = 0
    · rw [if_pos h1] at hr ⊢
      exact normalizeRec_end_term E str child _ pm _ st.json st.endN hr
    · rw [if_neg h1] at hr ⊢
      exact hinv hr
end

/-- C9: whenever the recursive normalizer returns status 0 the endNode out
parameter holds a node whose isTerminal flag is true, so the re-check that
ln_normalize performs on a zero status cannot fail and the success branch
(tag attachment, no unparsed fields) is always taken. -/
theorem claim_C9_end_terminal :
    (∀ (E : ParserEnv) (str : List Char) (dag : PDag) (offs : Nat) (pm : Bool)
        (wm0 : Nat) (json0 : JObj) (endN0 : Option PDag),
      (ln_normalizeRec E str dag offs pm wm0 json0 endN0).r = 0 →
      ∃ d, (ln_normalizeRec E str dag offs pm wm0 json0 endN0).endN = some d
        ∧ PDag.isTerminal d = true)
    ∧ (∀ (E : ParserEnv) (str : List Char) (dag : PDag) (json0 : JObj),
      (ln_normalizeRec E str dag 0 false 0 json0 none).r = 0 →
      ∃ tg2 es2,
        (ln_normalizeRec E str dag 0 false 0 json0 none).endN = some (.mk true tg2 es2)
        ∧ ln_normalize E str dag json0
          = ⟨0, (ln_normalizeRec E str dag 0 false 0 json0 none).wm,
              (match tg2 with
               | some tgv =>
                   jadd (ln_normalizeRec E str dag 0 false 0 json0 none).json
                     "event.tags" tgv
               | none => (ln_normalizeRec E str dag 0 false 0 json0 none).json),
              (ln_normalizeRec E str dag 0 false 0 json0 none).endN⟩) := by
  refine ⟨normalizeRec_end_term, ?_⟩
  intro E str dag json0 hr
  obtain ⟨d, hd, ht⟩ := normalizeRec_end_term E str dag 0 false 0 json0 none hr
  match d, ht with
  | .mk t tg2 es2, ht =>
    have ht2 : t = true := by simpa [PDag.isTerminal] using ht
    subst ht2
    refine ⟨tg2, es2, hd, ?_⟩
    rw [ln_normalize, hd]
    dsimp only
    rw [if_pos ⟨hr, rfl⟩, hr]

/-- C9 witness: a successful concrete run ends at a terminal node. -/
theorem claim_C9_end_terminal_witness :
    ∃ d, (ln_normalizeRec E0 [] tEmpty 0 false 0 [] none).endN = some d
      ∧ PDag.isTerminal d = true :=
  claim_C9_end_terminal.1 E0 [] tEmpty 0 false 0 [] none rfl

theorem ln_normalize_r_eq (E : ParserEnv) (str : List Char) (dag : PDag) (json0 : JObj) :
    (ln_normalize E str dag json0).r = (ln_normalizeRec E str dag 0 false 0 json0 none).r := by
  rw [ln_normalize]
  cases h : (ln_normalizeRec E str dag 0 false 0 json0 none).endN with
  | none => rfl
  | some d =>
    cases d with
    | mk t tg es =>
      dsimp only
      by_cases hc : (ln_normalizeRec E str dag 0 false 0 json0 none).r = 0 ∧ t = true
      · rw [if_pos hc]
      · rw [if_neg hc]

theorem ln_normalize_wm_eq (E : ParserEnv) (str : List Char) (dag : PDag) (json0 : JObj) :
    (ln_normalize E str dag json0).wm
      = (ln_normalizeRec E str dag 0 false 0 json0 none).wm := by
  rw [ln_normalize]
  cases h : (ln_normalizeRec E str dag 0 false 0 json0 none).endN with
  | none => rfl
  | some d =>
    cases d with
    | mk t tg es =>
      dsimp only
      by_cases hc : (ln_normalizeRec E str dag 0 false 0 json0 none).r = 0 ∧ t = true
      · rw [if_pos hc]
      · rw [if_neg hc]

theorem addUnparsed_lookup (str : List Char) (offs : Nat) (json : JObj) :
    jlookup (addUnparsedField str offs json) ORIGINAL_MSG_KEY = some (JVal.str str)
    ∧ jlookup (addUnparsedField str offs json) UNPARSED_DATA_KEY
        = some (JVal.str (List.drop offs str)) := by
  constructor
  · rw [addUnparsedField, jlookup_jadd_other _ _ _ _ (by decide), jlookup_jadd_self]
  · rw [addUnparsedField, jlookup_jadd_self]

/-- C4: ln_normalize returns 0 exactly when the recursive walk succeeded,
which happens exactly when a terminal node was reached (the endNode then
holds a terminal node); whenever the returned status is nonzero the result
carries originalmsg = the full input and unparsed-data = the input suffix
starting at the final watermark. -/
theorem claim_C4_status_and_unparsed :
    ∀ (E : ParserEnv) (str : List Char) (dag : PDag) (json0 : JObj),
      ((ln_normalize E str dag json0).r = 0
        ↔ (ln_normalizeRec E str dag 0 false 0 json0 none).r = 0)
      ∧ ((ln_normalizeRec E str dag 0 false 0 json0 none).r = 0 →
          ∃ d, (ln_normalizeRec E str dag 0 false 0 json0 none).endN = some d
            ∧ PDag.isTerminal d = true)
      ∧ ((ln_normalize E str dag json0).r ≠ 0 →
          jlookup (ln_normalize E str dag json0).json ORIGINAL_MSG_KEY
              = some (JVal.str str)
            ∧ jlookup (ln_normalize E str dag json0).json UNPARSED_DATA_KEY
              = some (JVal.str
                  (List.drop (ln_normalize E str dag json0).wm str))) := by
  intro E str dag json0
  refine ⟨by rw [ln_normalize_r_eq], normalizeRec_end_term E str dag 0 false 0 json0 none, ?_⟩
  intro hnz
  rw [ln_normalize_r_eq] at hnz
  rw [ln_normalize_wm_eq]
  rw [ln_normalize]
  cases h : (ln_normalizeRec E str dag 0 false 0 json0 none).endN with
  | none =>
    dsimp only
    exact addUnparsed_lookup str _ _
  | some d =>
    cases d with
    | mk t tg es =>
      dsimp only
      have hc : ¬((ln_normalizeRec E str dag 0 false 0 json0 none).r = 0 ∧ t = true) := by
        intro hc2
        exact hnz hc2.1
      rw [if_neg hc]
      exact addUnparsed_lookup str _ _

/-- C4 witness: a successful run (terminal reached) and a failing run with
the two reserved fields present. -/
theorem claim_C4_status_and_unparsed_witness :
    ((ln_normalize E0 ['A', 'B'] abRoot []).r = 0
      ↔ (ln_normalizeRec E0 ['A', 'B'] abRoot 0 false 0 [] none).r = 0)
    ∧ (jlookup (ln_normalize E0 ['z'] deadEnd []).json ORIGINAL_MSG_KEY
          = some (JVal.str ['z'])
        ∧ jlookup (ln_normalize E0 ['z'] deadEnd []).json UNPARSED_DATA_KEY
          = some (JVal.str ['z'])) := by
  constructor
  · exact (claim_C4_status_and_unparsed E0 ['A', 'B'] abRoot []).1
  · have h := (claim_C4_status_and_unparsed E0 ['z'] deadEnd []).2.2 (by decide)
    simpa using h

theorem prsEquiv_symm (a : LnParser) (pd : PrsDef) (nm : String) (c : PDag) :
    prsEquiv (.mk pd nm c) (LnParser.pd a) (LnParser.name a) = prsEquiv a pd nm := by
  cases a with
  | mk pda nma ca =>
    simp only [prsEquiv, LnParser.pd, LnParser.name]
    by_cases h1 : PrsDef.prsid pda = PrsDef.prsid pd
    · by_cases h2 : nma = nm
      · simp [h1, h2, eq_comm]
      · simp [h1, h2]
        intro hh
        exact absurd hh.symm h2
    · simp [h1]
      intro hh
      exact absurd hh.symm h1

theorem dupIn_eappend (b : LnParser) (a c : Edges) :
    dupIn b (eappend a c) = (dupIn b a || dupIn b c) := by
  match a with
  | .nil => simp [eappend, dupIn]
  | .cons x tl =>
    simp only [eappend, dupIn, dupIn_eappend b tl c, Bool.or_assoc]


theorem uniqE_append_new (es : Edges) (pd : PrsDef) (nm : String) (c : PDag)
    (hu : uniqE es = true) (hf : findEquiv es pd nm = none) :
    uniqE (eappend es (.cons (.mk pd nm c) .nil)) = true := by
  match es with
  | .nil => simp [eappend, uniqE, dupIn]
  | .cons a tl =>
    simp only [uniqE, Bool.and_eq_true, Bool.not_eq_true'] at hu
    simp only [findEquiv] at hf
    by_cases hx : prsEquiv a pd nm = true
    · rw [if_pos hx] at hf
      exact absurd hf (by simp)
    · rw [if_neg hx] at hf
      simp only [eappend, uniqE, Bool.and_eq_true, Bool.not_eq_true']
      refine ⟨?_, uniqE_append_new tl pd nm c hu.2 hf⟩
      rw [dupIn_eappend, hu.1]
      simp only [dupIn, Bool.false_or, Bool.or_false]
      rw [prsEquiv_symm a pd nm c]
      simpa using hx

theorem addParser_node (ctx : CtxModel) (t : Bool) (tg : Option JVal) (es : Edges)
    (pd : PrsDef) (nm : String) :
    ∃ es2, (ln_pdagAddParser ctx (.mk t tg es) pd nm).2.1 = .mk t tg es2
      ∧ (uniqE es = true → uniqE es2 = true) := by
  cases hf : findEquiv es pd nm with
  | some e =>
    refine ⟨es, ?_, fun h => h⟩
    simp only [ln_pdagAddParser, hf]
  | none =>
    refine ⟨eappend es (.cons (.mk pd nm (ln_newPDAG ctx).2) .nil), ?_, ?_⟩
    · simp only [ln_pdagAddParser, hf]
    · exact fun hu => uniqE_append_new es pd nm _ hu hf

theorem addSeq_uniq (specs : List (PrsDef × String)) :
    ∀ (ctx : CtxModel) (t : Bool) (tg : Option JVal) (es : Edges), uniqE es = true →
      uniqE (PDag.edges (addSeq ctx (.mk t tg es) specs).2) = true := by
  match specs with
  | [] => intro ctx t tg es hu; simpa [addSeq, PDag.edges] using hu
  | (pd, nm) :: rest =>
    intro ctx t tg es hu
    obtain ⟨es2, heq, hu2⟩ := addParser_node ctx t tg es pd nm
    simp only [addSeq, heq]
    exact addSeq_uniq rest _ t tg es2 (hu2 hu)

/-- C5: ln_pdagAddParser preserves edge uniqueness: starting from a node
without duplicate {prsid, name} edges (literals compared additionally by
their character), the node after the call, and after any further sequence of
calls, still has none; and when an equivalent edge already exists the node
is unchanged (nothing is appended, the new edge is dropped), the context is
unchanged (no node allocated) and *pdag advances to the existing edge's
child. -/
theorem claim_C5_addParser_uniqueness :
    ∀ (ctx : CtxModel) (t : Bool) (tg : Option JVal) (es : Edges) (pd : PrsDef) (nm : String),
      (uniqE es = true →
        uniqE (PDag.edges (ln_pdagAddParser ctx (.mk t tg es) pd nm).2.1) = true)
      ∧ (∀ e, findEquiv es pd nm = some e →
          (ln_pdagAddParser ctx (.mk t tg es) pd nm).2.1 = .mk t tg es
          ∧ (ln_pdagAddParser ctx (.mk t tg es) pd nm).2.2 = LnParser.child e
          ∧ (ln_pdagAddParser ctx (.mk t tg es) pd nm).1 = ctx)
      ∧ (∀ specs, uniqE es = true →
          uniqE (PDag.edges (addSeq ctx (.mk t tg es) specs).2) = true) := by
  intro ctx t tg es pd nm
  refine ⟨?_, ?_, fun specs => addSeq_uniq specs ctx t tg es⟩
  · intro hu
    obtain ⟨es2, heq, hu2⟩ := addParser_node ctx t tg es pd nm
    rw [heq]
    exact hu2 hu
  · intro e hf
    simp [ln_pdagAddParser, hf]

/-- C5 witness: adding a literal edge twice leaves a single edge and routes
the second call to the existing child; a different literal character makes a
second edge, still without duplicates. -/
theorem claim_C5_addParser_uniqueness_witness :
    (uniqE (PDag.edges (ln_pdagAddParser ⟨0⟩ (.mk false none
        (.cons (.mk (.literal ['a']) "-" tEmpty) .nil)) (.literal ['a']) "-").2.1) = true)
    ∧ ((ln_pdagAddParser ⟨0⟩ (.mk false none
          (.cons (.mk (.literal ['a']) "-" tEmpty) .nil)) (.literal ['a']) "-").2.1
        = .mk false none (.cons (.mk (.literal ['a']) "-" tEmpty) .nil)
      ∧ (ln_pdagAddParser ⟨0⟩ (.mk false none
          (.cons (.mk (.literal ['a']) "-" tEmpty) .nil)) (.literal ['a']) "-").2.2
        = LnParser.child (.mk (.literal ['a']) "-" tEmpty)
      ∧ (ln_pdagAddParser ⟨0⟩ (.mk false none
          (.cons (.mk (.literal ['a']) "-" tEmpty) .nil)) (.literal ['a']) "-").1 = ⟨0⟩)
    ∧ uniqE (PDag.edges (ln_pdagAddParser ⟨0⟩ (.mk false none
        (.cons (.mk (.literal ['a']) "-" tEmpty) .nil)) (.literal ['b']) "-").2.1) = true := by
  refine ⟨?_, ?_, ?_⟩
  · exact (claim_C5_addParser_uniqueness ⟨0⟩ false none
      (.cons (.mk (.literal ['a']) "-" tEmpty) .nil) (.literal ['a']) "-").1 (by decide)
  · exact (claim_C5_addParser_uniqueness ⟨0⟩ false none
      (.cons (.mk (.literal ['a']) "-" tEmpty) .nil) (.literal ['a']) "-").2.1
      (.mk (.literal ['a']) "-" tEmpty) rfl
  · exact (claim_C5_addParser_uniqueness ⟨0⟩ false none
      (.cons (.mk (.literal ['a']) "-" tEmpty) .nil) (.literal ['b']) "-").1 (by decide)

theorem optEdgeGo_structure (p : List Char) (nm : String) (child : PDag) :
    ∃ q c2, optEdgeGo p nm child = .mk (.literal q) nm (ln_pdagComponentOptimize c2)
      ∧ litHeadSingle c2 = false ∧ sizeOf c2 ≤ sizeOf child
      ∧ countNodes c2 ≤ countNodes child := by
  match child with
  | .mk t tg (.cons (.mk (.literal p2) n2 g) .nil) =>
    obtain ⟨q, c2, heq, hl, hs, hc⟩ := optEdgeGo_structure (p ++ p2) nm g
    refine ⟨q, c2, ?_, hl, ?_, ?_⟩
    · simp only [optEdgeGo]
      exact heq
    · simp only [PDag.mk.sizeOf_spec, Edges.cons.sizeOf_spec, LnParser.mk.sizeOf_spec,
        PrsDef.literal.sizeOf_spec, Edges.nil.sizeOf_spec]
      omega
    · simp only [countNodes, countNodesE]
      omega
  | .mk t tg .nil =>
    exact ⟨p, .mk t tg .nil, by simp [optEdgeGo], by simp [litHeadSingle], Nat.le_refl _,
      Nat.le_refl _⟩
  | .mk t tg (.cons (.mk (.builtin i d) n2 g) .nil) =>
    exact ⟨p, _, by simp [optEdgeGo], by simp [litHeadSingle], Nat.le_refl _, Nat.le_refl _⟩
  | .mk t tg (.cons (.mk (.custom s2 tp) n2 g) .nil) =>
    exact ⟨p, _, by simp [optEdgeGo], by simp [litHeadSingle], Nat.le_refl _, Nat.le_refl _⟩
  | .mk t tg (.cons e1 (.cons x y)) =>
    exact ⟨p, _, by simp [optEdgeGo], by simp [litHeadSingle], Nat.le_refl _, Nat.le_refl _⟩

theorem litHeadSingle_opt (c : PDag) :
    litHeadSingle (ln_pdagComponentOptimize c) = litHeadSingle c := by
  match c with
  | .mk t tg .nil => simp [ln_pdagComponentOptimize, optEdgesRec, litHeadSingle]
  | .mk t tg (.cons (.mk (.literal p) nmp cp) .nil) =>
    obtain ⟨q, c2, heq, -, -, -⟩ := optEdgeGo_structure p nmp cp
    simp [ln_pdagComponentOptimize, optEdgesRec, optEdgeFull, heq, litHeadSingle]
  | .mk t tg (.cons (.mk (.builtin i d) nmp cp) .nil) =>
    simp [ln_pdagComponentOptimize, optEdgesRec, optEdgeFull, litHeadSingle]
  | .mk t tg (.cons (.mk (.custom s2 tp) nmp cp) .nil) =>
    simp [ln_pdagComponentOptimize, optEdgesRec, optEdgeFull, litHeadSingle]
  | .mk t tg (.cons prs (.cons x y)) =>
    simp [ln_pdagComponentOptimize, optEdgesRec, litHeadSingle]

theorem optEdgeGo_base (q : List Char) (nm : String) (X : PDag)
    (h : litHeadSingle X = false) :
    optEdgeGo q nm X = .mk (.literal q) nm (ln_pdagComponentOptimize X) := by
  match X with
  | .mk t tg .nil => simp [optEdgeGo]
  | .mk t tg (.cons (.mk (.literal p2) n2 g) .nil) =>
    exact absurd h (by simp [litHeadSingle])
  | .mk t tg (.cons (.mk (.builtin i d) n2 g) .nil) => simp [optEdgeGo]
  | .mk t tg (.cons (.mk (.custom s2 tp) n2 g) .nil) => simp [optEdgeGo]
  | .mk t tg (.cons e1 (.cons x y)) => simp [optEdgeGo]

mutual
theorem opt_idem (g : PDag) :
    ln_pdagComponentOptimize (ln_pdagComponentOptimize g) = ln_pdagComponentOptimize g := by
  match g with
  | .mk t tg es =>
    simp only [ln_pdagComponentOptimize]
    rw [optEdges_idem es]
termination_by (sizeOf g, 0)
decreasing_by
  simp_wf
  omega

theorem optEdges_idem (es : Edges) : optEdgesRec (optEdgesRec es) = optEdgesRec es := by
  match es with
  | .nil => simp [optEdgesRec]
  | .cons prs rest =>
    simp only [optEdgesRec]
    rw [optEdgeFull_idem prs, optEdges_idem rest]
termination_by (sizeOf es, 0)
decreasing_by
  all_goals simp_wf
  all_goals omega

theorem optEdgeFull_idem (prs : LnParser) : optEdgeFull (optEdgeFull prs) = optEdgeFull prs := by
  match prs with
  | .mk (.literal p) nm child =>
    obtain ⟨q, c2, heq, hl, hs, -⟩ := optEdgeGo_structure p nm child
    have h1 : optEdgeFull (.mk (.literal p) nm child) = optEdgeGo p nm child := by
      simp [optEdgeFull]
    rw [h1, heq]
    have h2 : optEdgeFull (.mk (.literal q) nm (ln_pdagComponentOptimize c2))
        = optEdgeGo q nm (ln_pdagComponentOptimize c2) := by
      simp [optEdgeFull]
    rw [h2, optEdgeGo_base q nm _ (by rw [litHeadSingle_opt]; exact hl), opt_idem c2]
  | .mk (.builtin i d) nm child =>
    simp only [optEdgeFull]
    rw [opt_idem child]
  | .mk (.custom s2 tp) nm child =>
    simp only [optEdgeFull]
    rw [opt_idem child]
termination_by (sizeOf prs, 1)
decreasing_by
  all_goals simp_wf
  all_goals omega
end

/-- C8: the literal-path-compaction optimizer is idempotent: a second pass
over the output of the first pass changes nothing, both per component and
for the full context optimization over all user-defined types plus the main
component. -/
theorem claim_C8_optimize_idempotent :
    (∀ g, ln_pdagComponentOptimize (ln_pdagComponentOptimize g) = ln_pdagComponentOptimize g)
    ∧ (∀ (types : List PDag) (mainDag : PDag),
        ln_pdagOptimize (ln_pdagOptimize types mainDag).1 (ln_pdagOptimize types mainDag).2
          = ln_pdagOptimize types mainDag) := by
  refine ⟨opt_idem, ?_⟩
  intro types mainDag
  have hl : ∀ l : List PDag,
      (l.map ln_pdagComponentOptimize).map ln_pdagComponentOptimize
        = l.map ln_pdagComponentOptimize := by
    intro l
    induction l with
    | nil => rfl
    | cons x xs ih => simp [ih, opt_idem x]
  simp only [ln_pdagOptimize]
  rw [hl types, opt_idem mainDag]

theorem countNodesE_append (a b : Edges) :
    countNodesE (eappend a b) = countNodesE a + countNodesE b := by
  match a with
  | .nil => simp [eappend, countNodesE]
  | .cons (.mk pd nm c) tl =>
    simp only [eappend, countNodesE, countNodesE_append tl b]
    omega

mutual
theorem opt_count (g : PDag) :
    countNodes (ln_pdagComponentOptimize g) ≤ countNodes g := by
  match g with
  | .mk t tg es =>
    simp only [ln_pdagComponentOptimize, countNodes]
    have h := optEdges_count es
    omega
termination_by (sizeOf g, 0)
decreasing_by
  simp_wf
  omega

theorem optEdges_count (es : Edges) :
    countNodesE (optEdgesRec es) ≤ countNodesE es := by
  match es with
  | .nil => simp [optEdgesRec]
  | .cons prs rest =>
    have hrest := optEdges_count rest
    match prs with
    | .mk (.literal p) nm child =>
      obtain ⟨q, c2, heq, -, hs, hc⟩ := optEdgeGo_structure p nm child
      have h1 : optEdgeFull (.mk (.literal p) nm child) = optEdgeGo p nm child := by
        simp [optEdgeFull]
      have h2 := opt_count c2
      simp only [optEdgesRec, h1, heq, countNodesE]
      omega
    | .mk (.builtin i d) nm child =>
      have h2 := opt_count child
      simp only [optEdgesRec, optEdgeFull, countNodesE]
      omega
    | .mk (.custom s2 tp) nm child =>
      have h2 := opt_count child
      simp only [optEdgesRec, optEdgeFull, countNodesE]
      omega
termination_by (sizeOf es, 0)
decreasing_by
  all_goals simp_wf
  all_goals omega
end

/-- C10: the context node count records total allocations, not the current
graph size.  ln_newPDAG increments it on every allocation; ln_pdagAddParser
grows it exactly in step with the live node count (merge: neither changes;
append: both grow by one); the optimizer, whose node deletions never touch
the context, only ever shrinks the live node count, strictly so on the
AB/ABCD component (5 live nodes before, 2 after), so after such a pass the
count of allocations strictly exceeds the number of live nodes. -/
theorem claim_C10_node_count :
    (∀ ctx : CtxModel, (ln_newPDAG ctx).1.nNodes = ctx.nNodes + 1)
    ∧ (∀ (ctx : CtxModel) (t : Bool) (tg : Option JVal) (es : Edges) (pd : PrsDef)
        (nm : String),
        (ln_pdagAddParser ctx (.mk t tg es) pd nm).1.nNodes + countNodes (.mk t tg es)
          = ctx.nNodes + countNodes (ln_pdagAddParser ctx (.mk t tg es) pd nm).2.1)
    ∧ (∀ g, countNodes (ln_pdagComponentOptimize g) ≤ countNodes g)
    ∧ countNodes abRoot = 5
    ∧ countNodes (ln_pdagComponentOptimize abRoot) = 2 := by
  refine ⟨fun ctx => rfl, ?_, opt_count, ?_, ?_⟩
  · intro ctx t tg es pd nm
    cases hf : findEquiv es pd nm with
    | some e => simp [ln_pdagAddParser, hf]
    | none =>
      simp only [ln_pdagAddParser, hf, countNodes, countNodesE_append, countNodesE,
        ln_newPDAG]
      omega
  · simp [countNodes, countNodesE, abRoot, abN1, abN2, abN3, tEmpty]
  · simp [ln_pdagComponentOptimize, optEdgesRec, optEdgeFull, optEdgeGo, countNodes,
      countNodesE, abRoot, abN1, abN2, abN3, tEmpty]

/-- C1: the literal-path compaction of optLitPathCompact is applied with no
regard to field names or terminal flags (the checks remain TODO comments at
pdag.c:206-208): on the component built from samples AB and ABCD the
optimizer fuses the whole path into one ABCD edge, splicing out and deleting
the terminal node that recorded the AB sample, so AB matched before
optimization but no longer matches after it; likewise a literal edge whose
field name is x (not -) is fused with its successor. -/
theorem claim_C1_compaction_unchecked :
    ln_pdagComponentOptimize abRoot
      = .mk false none (.cons (.mk (.literal ['A', 'B', 'C', 'D']) "-" tEmpty) .nil)
    ∧ (ln_normalize E0 ['A', 'B'] abRoot []).r = 0
    ∧ (ln_normalize E0 ['A', 'B'] (ln_pdagComponentOptimize abRoot) []).r = LN_WRONGPARSER
    ∧ ln_pdagComponentOptimize namedLitRoot
      = .mk false none (.cons (.mk (.literal ['u', 'v']) "x" tEmpty) .nil) := by
  have h1 : ln_pdagComponentOptimize abRoot
      = .mk false none (.cons (.mk (.literal ['A', 'B', 'C', 'D']) "-" tEmpty) .nil) := by
    simp [ln_pdagComponentOptimize, optEdgesRec, optEdgeFull, optEdgeGo, abRoot, abN1,
      abN2, abN3, tEmpty]
  refine ⟨h1, by rfl, ?_, ?_⟩
  · rw [h1]
    simp [ln_normalize, ln_normalizeRec, edgeLoop, stepEdge, tryParser, tEmpty, SIZE_W,
      LN_WRONGPARSER, fixJSON, litHere, litMatch, E0, jadd, addUnparsedField]
  · simp [ln_pdagComponentOptimize, optEdgesRec, optEdgeFull, optEdgeGo, namedLitRoot,
      tEmpty]

/-- C6: on a CUSTOM_TYPE edge the normalizer recurses with partial = 1 into
the type's pdag and accepts at any terminal, but the parsed length it
reports to the enclosing walk is not the number of characters the subtype
consumed: with the skipRoot component on input a, the subtype t matches
consuming 0 characters (its watermark stays 0), yet after the earlier
literal edge has left 1 in the loop's parsed variable, tryParser reports
parsed = 1, the enclosing walk resumes at offset 1, and normalize accepts
input a; the same rule alone (skipRootB) rejects it. -/
theorem claim_C6_custom_type_length :
    (ln_normalize E0 ['a'] skipRoot []).r = 0
    ∧ (ln_normalizeRec E0 ['a'] tEmpty 0 true 0 [] none).r = 0
    ∧ (ln_normalizeRec E0 ['a'] tEmpty 0 true 0 [] none).wm = 0
    ∧ (tryParser E0 ['a'] 0 1 (.custom "t" tEmpty) "f").parsed = 1
    ∧ (ln_normalize E0 ['a'] skipRootB []).r = LN_WRONGPARSER := by
  refine ⟨?_, by rfl, by rfl, by rfl, ?_⟩
  · simp [ln_normalize, ln_normalizeRec, edgeLoop, stepEdge, tryParser, skipRoot, tEmpty,
      deadEnd, SIZE_W, LN_WRONGPARSER, fixJSON, litHere, litMatch, E0, jadd,
      addUnparsedField]
  · simp [ln_normalize, ln_normalizeRec, edgeLoop, stepEdge, tryParser, skipRootB, tEmpty,
      SIZE_W, LN_WRONGPARSER, fixJSON, litHere, litMatch, E0, jadd, addUnparsedField]
